import Mathlib

/-!
# Verification of the Dynamic Page Size Allocation Simulation

Shallow embedding of the C++ memory-system simulator:
* `OrderedDict` (OrderedDict.h): an unordered_map paired with an insertion-order vector.
* `TLB` (memory_system_tlb.h): fixed-capacity LRU cache over `OrderedDict`.
* `PolicyEngine` (policy_engine.h): page-size decision function.
* `MMU` (memory_system_mmu.h): page table, physical-frame bitmap, allocate/translate.

Modelling conventions:
* C++ `int` values in this program are nonnegative in every use (addresses, sizes,
  counters), so they are embedded as `Nat`; `/` on nonnegative ints agrees with `Nat`
  division.
* `unordered_map<int, pair<int,int>>` (the MMU page table) is embedded as the finite
  map `Nat → Option (Nat × Nat)`.
* `vector<bool> physical_frames` is embedded as its length `num_frames` together with
  its contents `physical_frames : Nat → Bool` (indices `≥ num_frames` are never read).
* A thrown `runtime_error` is embedded as an explicit failure result
  (`AllocStatus.outOfMemory` for allocate, `none` for translate); the object state at
  the moment of the throw is the state paired with the failure.
-/

/-! ## Constants (constants.h) -/

def SMALL_PAGE_SIZE : Nat := 4 * 1024

def LARGE_PAGE_SIZE : Nat := 2 * 1024 * 1024

def PHYSICAL_MEMORY_SIZE : Nat := 1 * 1024 * 1024 * 1024

def TLB_SIZE : Nat := 64

/-! ## OrderedDict (OrderedDict.h), keys and values specialised to `Nat`
as instantiated by the TLB (`OrderedDict<int, int>`). -/

structure OrderedDict where
  map : List (Nat × Nat)
  order : List Nat
  deriving Repr, DecidableEq

namespace OrderedDict

def empty : OrderedDict := ⟨[], []⟩

/-- `map.find(key) != map.end()` -/
def containsKey (d : OrderedDict) (k : Nat) : Bool :=
  d.map.any (fun p => p.1 == k)

/-- `map.at(key)` / `map[key]` read on a present key. -/
def get (d : OrderedDict) (k : Nat) : Option Nat :=
  (d.map.find? (fun p => p.1 == k)).map (·.2)

/-- `map[key] = value`: overwrite the entry for `k` if present, else add one. -/
def setAssoc : List (Nat × Nat) → Nat → Nat → List (Nat × Nat)
  | [], k, v => [(k, v)]
  | p :: ps, k, v => if p.1 = k then (k, v) :: ps else p :: setAssoc ps k v

/-- `OrderedDict::insert`: if `k` absent, append it to `order`; always set `map[k]=v`. -/
def insert (d : OrderedDict) (k v : Nat) : OrderedDict :=
  { map := setAssoc d.map k v
    order := if d.containsKey k then d.order else d.order ++ [k] }

/-- `OrderedDict::erase`: remove the mapping and the key's entry in `order`;
no-op when the key is absent. -/
def erase (d : OrderedDict) (k : Nat) : OrderedDict :=
  if d.containsKey k then
    { map := d.map.eraseP (fun p => p.1 == k), order := d.order.erase k }
  else d

/-- `OrderedDict::move_to_end`: relocate `k` to the back of `order`; no-op if absent. -/
def move_to_end (d : OrderedDict) (k : Nat) : OrderedDict :=
  if k ∈ d.order then { d with order := d.order.erase k ++ [k] } else d

/-- `OrderedDict::size` returns `map.size()`. -/
def size (d : OrderedDict) : Nat := d.map.length

end OrderedDict

/-! ## TLB (memory_system_tlb.h) -/

structure TLB where
  size : Nat
  cache : OrderedDict
  hits : Nat
  misses : Nat
  deriving Repr, DecidableEq

namespace TLB

/-- `TLB::TLB(tlb_size)` -/
def init (tlb_size : Nat) : TLB :=
  { size := tlb_size, cache := OrderedDict.empty, hits := 0, misses := 0 }

/-- `TLB::lookup`: on a hit count it, refresh recency and return the cached frame;
on a miss count it and return the miss sentinel (`none` embeds `-1`). -/
def lookup (t : TLB) (vpn : Nat) : Option Nat × TLB :=
  if t.cache.containsKey vpn then
    let c := t.cache.move_to_end vpn
    (c.get vpn, { t with hits := t.hits + 1, cache := c })
  else
    (none, { t with misses := t.misses + 1 })

/-- `TLB::insert`: drop a stale entry for the same VPN, else when at capacity evict
the front of the order sequence (`cache.get_order().front()`; on an empty order the
C++ `front()` is undefined, embedded here as the default key `0`), then insert. -/
def insert (t : TLB) (vpn frame : Nat) : TLB :=
  let c :=
    if t.cache.containsKey vpn then
      t.cache.erase vpn
    else if t.size ≤ t.cache.size then
      t.cache.erase (t.cache.order.headD 0)
    else
      t.cache
  { t with cache := c.insert vpn frame }

/-- `TLB::hit_rate` -/
def hit_rate (t : TLB) : Nat :=
  if t.hits + t.misses = 0 then 0 else (t.hits * 100) / (t.hits + t.misses)

end TLB

/-! ## PolicyEngine (policy_engine.h) -/

structure PolicyEngine where
  mode : String
  threshold : Nat
  deriving Repr, DecidableEq

namespace PolicyEngine

/-- Constructor defaults: `PolicyEngine(string input_mode = "dynamic",
int input_threshold = 1 * 1024 * 1024)`. -/
def default : PolicyEngine := ⟨"dynamic", 1 * 1024 * 1024⟩

/-- `PolicyEngine::decide_page_size` -/
def decide_page_size (pe : PolicyEngine) (request_size : Nat) : Nat :=
  if pe.mode = "small" then SMALL_PAGE_SIZE
  else if pe.mode = "large" then LARGE_PAGE_SIZE
  else if pe.mode = "dynamic" then
    if request_size > pe.threshold then LARGE_PAGE_SIZE else SMALL_PAGE_SIZE
  else SMALL_PAGE_SIZE

end PolicyEngine

/-! ## MMU (memory_system_mmu.h) -/

/-- `std::find(physical_frames.begin(), physical_frames.end(), false)`:
index of the first free frame at or after `i`, `none` when every frame from `i`
to the end is allocated. The loop over `i < n` is embedded structurally with
`r = n - i` remaining indices. -/
def findFirstFree (f : Nat → Bool) : Nat → Nat → Option Nat
  | _, 0 => none
  | i, r + 1 => if f i = false then some i else findFirstFree f (i + 1) r

/-- The contiguous-run scan of `MMU::find_and_allocate_physical_frames`
(`num_frames > 1` branch), lines 81–108: walk the indices keeping
`count` = length of the current streak of free frames and `start` = its first
index (`none` embeds the C++ `start_index = -1`); return `start` as soon as
`count` reaches `k`. The loop over `i < n` is embedded structurally with
`r = n - i` remaining indices. -/
def findRun (f : Nat → Bool) (k : Nat) : Nat → Nat → Option Nat → Nat → Option Nat
  | _, _, _, 0 => none
  | i, count, start, r + 1 =>
    let cs : Nat × Option Nat :=
      if f i = false then (count + 1, if count = 0 then some i else start)
      else (0, none)
    if cs.1 = k then cs.2 else findRun f k (i + 1) cs.1 cs.2 r

/-- The marking loop `for (j = start_index; j < start_index + num_frames; j++)
physical_frames[j] = true;` as a pointwise update of the bitmap. -/
def markRange (f : Nat → Bool) (s k : Nat) : Nat → Bool :=
  fun j => if s ≤ j ∧ j < s + k then true else f j

/-- `MMU::find_and_allocate_physical_frames` on a bitmap of `n` frames:
returns the start index (or `none` for the C++ `-1`) and the updated bitmap. -/
def findAndAllocateFrames (n : Nat) (f : Nat → Bool) (k : Nat) :
    Option Nat × (Nat → Bool) :=
  if k = 1 then
    match findFirstFree f 0 n with
    | some i => (some i, fun j => if j = i then true else f j)
    | none => (none, f)
  else
    match findRun f k 0 0 none n with
    | some s => (some s, markRange f s k)
    | none => (none, f)

inductive AllocStatus where
  | success
  | outOfMemory
  deriving Repr, DecidableEq

structure MMU where
  tlb : TLB
  page_table : Nat → Option (Nat × Nat)
  policy_engine : PolicyEngine
  num_frames : Nat
  physical_frames : Nat → Bool
  internal_fragmentation : Nat

namespace MMU

/-- `MMU::MMU(PolicyEngine pe)`: empty TLB of `TLB_SIZE` entries, empty page table,
`PHYSICAL_MEMORY_SIZE / SMALL_PAGE_SIZE` free frames, zero fragmentation. -/
def init (pe : PolicyEngine) : MMU :=
  { tlb := TLB.init TLB_SIZE
    page_table := fun _ => none
    policy_engine := pe
    num_frames := PHYSICAL_MEMORY_SIZE / SMALL_PAGE_SIZE
    physical_frames := fun _ => false
    internal_fragmentation := 0 }

/-- The per-page loop of `MMU::allocate` (lines 125–143): `i` is the loop index,
`r` the remaining iterations (`num_pages_needed - i`). A VPN already in the page
table is skipped; otherwise frames are acquired, and on failure the thrown
`runtime_error("Out of physical memory")` stops the loop with the state as is. -/
def allocPages (ps first : Nat) : MMU → Nat → Nat → MMU × AllocStatus
  | m, _, 0 => (m, .success)
  | m, i, r + 1 =>
    let vpn := first + i
    match m.page_table vpn with
    | some _ => allocPages ps first m (i + 1) r
    | none =>
      let number_frames_per_page := ps / SMALL_PAGE_SIZE
      let res := findAndAllocateFrames m.num_frames m.physical_frames
        number_frames_per_page
      match res.1 with
      | none => (m, .outOfMemory)
      | some pfn =>
        allocPages ps first
          { m with
            physical_frames := res.2
            page_table := fun v => if v = vpn then some (pfn, ps) else m.page_table v }
          (i + 1) r

/-- `MMU::allocate`: pick the page size, compute the VPN span, charge the
fragmentation contribution up front, then map each VPN of the span. -/
def allocate (m : MMU) (virtual_address request_size : Nat) : MMU × AllocStatus :=
  let page_size := m.policy_engine.decide_page_size request_size
  let first_vpn := virtual_address / page_size
  let last_vpn := (virtual_address + request_size - 1) / page_size
  let num_pages_needed := last_vpn - first_vpn + 1
  let allocated_memory := num_pages_needed * page_size
  let m := { m with internal_fragmentation :=
    m.internal_fragmentation + (allocated_memory - request_size) }
  allocPages page_size first_vpn m 0 num_pages_needed

/-- The page walk of `MMU::translate` (lines 148–166): prefer a large-page entry
at `va / LARGE_PAGE_SIZE`, else a small-page entry at `va / SMALL_PAGE_SIZE`,
else fail (the thrown `runtime_error("Invalid virtual address")`). -/
def resolveVpn (pt : Nat → Option (Nat × Nat)) (va : Nat) : Option Nat :=
  let large_vpn := va / LARGE_PAGE_SIZE
  match pt large_vpn with
  | some e =>
    if e.2 = LARGE_PAGE_SIZE then some large_vpn
    else
      match pt (va / SMALL_PAGE_SIZE) with
      | some e' => if e'.2 = SMALL_PAGE_SIZE then some (va / SMALL_PAGE_SIZE) else none
      | none => none
  | none =>
    match pt (va / SMALL_PAGE_SIZE) with
    | some e' => if e'.2 = SMALL_PAGE_SIZE then some (va / SMALL_PAGE_SIZE) else none
    | none => none

/-- `MMU::translate`: resolve the VPN, consult the TLB, and on a miss read the
frame from the page table and cache it. The C++ function's observable result is
the resolved `physical_frame` variable, returned here (`none` embeds the
`InvalidAddress` failure). -/
def translate (m : MMU) (va : Nat) : MMU × Option Nat :=
  match resolveVpn m.page_table va with
  | none => (m, none)
  | some vpn =>
    let lk := m.tlb.lookup vpn
    match lk.1 with
    | some physical_frame => ({ m with tlb := lk.2 }, some physical_frame)
    | none =>
      let physical_frame := ((m.page_table vpn).getD (0, 0)).1
      ({ m with tlb := lk.2.insert vpn physical_frame }, some physical_frame)

def get_tlb_hit_rate (m : MMU) : Nat := m.tlb.hit_rate

def get_internal_fragmentation (m : MMU) : Nat := m.internal_fragmentation

end MMU

/-! ## Operation sequences

The driver (main.cpp) interacts with the core only through `TLB.insert` /
`TLB.lookup` (via the MMU) and through `MMU.allocate` / `MMU.translate`; the
claims that quantify over "every sequence of operations" are phrased over these
operation lists. -/

inductive TLBOp where
  | ins (vpn frame : Nat)
  | look (vpn : Nat)

def TLB.run : TLB → List TLBOp → TLB
  | t, [] => t
  | t, .ins vpn frame :: ops => (t.insert vpn frame).run ops
  | t, .look vpn :: ops => ((t.lookup vpn).2).run ops

inductive MMUOp where
  | alloc (va sz : Nat)
  | trans (va : Nat)

def MMU.run : MMU → List MMUOp → MMU
  | m, [] => m
  | m, .alloc va sz :: ops => ((m.allocate va sz).1).run ops
  | m, .trans va :: ops => ((m.translate va).1).run ops

/-- A state of the simulator obtainable from a freshly constructed `MMU` by some
sequence of `allocate`/`translate` calls. -/
def MMU.Reachable (m : MMU) : Prop :=
  ∃ (pe : PolicyEngine) (ops : List MMUOp), (MMU.init pe).run ops = m

/-! ## OrderedDict well-formedness

`TLB` keeps its `OrderedDict` with the key multiset of `map` and the `order`
vector in sync (every C++ code path updates both together); `Synced` is that
representation invariant. -/

def OrderedDict.Synced (d : OrderedDict) : Prop :=
  (d.map.map Prod.fst).Perm d.order ∧ d.order.Nodup

/-- The C4 scenario: starting from an empty TLB of capacity `mid.length + 1`,
insert the `mid.length + 2` pairs `p0, mid…, plast` in order, with no lookups. -/
def lruScenario (p0 plast : Nat × Nat) (mid : List (Nat × Nat)) : TLB :=
  (TLB.init (mid.length + 1)).run
    (((p0 :: mid) ++ [plast]).map fun p => TLBOp.ins p.1 p.2)

/-- `k` consecutive free frames starting at `s`. -/
def FreeRun (f : Nat → Bool) (k s : Nat) : Prop :=
  ∀ j, j < k → f (s + j) = false

/-- A small mid-execution MMU state used to witness out-of-memory behaviour
(its frame vector holds 2 frames; `allocate` on an `MMU` reads the vector's own
size, so the theorems below apply to it directly). -/
def tinyMMU : MMU :=
  { tlb := TLB.init TLB_SIZE
    page_table := fun _ => none
    policy_engine := ⟨"small", 1024 * 1024⟩
    num_frames := 2
    physical_frames := fun _ => false
    internal_fragmentation := 0 }

/-- A small MMU state with one pre-existing page-table entry. -/
def preMMU : MMU :=
  { tlb := TLB.init TLB_SIZE
    page_table := fun v => if v = 0 then some (7, 4096) else none
    policy_engine := ⟨"small", 1024 * 1024⟩
    num_frames := 4
    physical_frames := fun _ => false
    internal_fragmentation := 0 }

/-- Every cached TLB translation agrees with the page table: the only code path
that fills the TLB is the miss path of `translate`, which copies the
page table's frame. -/
def MMU.TLBAgrees (m : MMU) : Prop :=
  ∀ p : Nat × Nat, p ∈ m.tlb.cache.map →
    ∃ sz, m.page_table p.1 = some (p.2, sz)


/-! ## Helper lemmas -/

theorem MMU.allocPages_internal_fragmentation (ps first : Nat) :
    ∀ (r i : Nat) (m : MMU),
      ((MMU.allocPages ps first m i r).1).internal_fragmentation
        = m.internal_fragmentation := by
  intro r
  induction r with
  | zero => intro i m; rfl
  | succ r ih =>
    intro i m
    simp only [MMU.allocPages]
    cases hpt : m.page_table (first + i) with
    | some e => simpa [hpt] using ih (i + 1) m
    | none =>
      cases hres : (findAndAllocateFrames m.num_frames m.physical_frames
          (ps / SMALL_PAGE_SIZE)).1 with
      | none => simp [hpt, hres]
      | some pfn => simpa [hpt, hres] using ih (i + 1) _

/-! ## Claims -/

/-- Claim C2: every `allocate(virtual_address, request_size)` call increases the
cumulative internal-fragmentation counter by exactly
`num_pages * page_size - request_size`, with `page_size` the policy-selected
size, `first_vpn = virtual_address / page_size`,
`last_vpn = (virtual_address + request_size - 1) / page_size` and
`num_pages = last_vpn - first_vpn + 1`, unconditionally (in particular even when
every page of the request already exists: the per-page loop never touches the
counter); hence the cumulative counter is the sum of per-request contributions. -/
theorem allocate_charges_per_request_fragmentation (m : MMU) (va sz : Nat)
    (_hsz : 1 ≤ sz) :
    ((m.allocate va sz).1).internal_fragmentation
      = m.internal_fragmentation
        + ((((va + sz - 1) / m.policy_engine.decide_page_size sz)
            - va / m.policy_engine.decide_page_size sz + 1)
            * m.policy_engine.decide_page_size sz - sz) := by
  simp only [MMU.allocate]
  rw [MMU.allocPages_internal_fragmentation]

theorem allocate_charges_per_request_fragmentation_witness :
    ((MMU.init PolicyEngine.default).allocate 0 10000).1.internal_fragmentation
      = (MMU.init PolicyEngine.default).internal_fragmentation
        + ((((0 + 10000 - 1)
              / (MMU.init PolicyEngine.default).policy_engine.decide_page_size 10000)
            - 0 / (MMU.init PolicyEngine.default).policy_engine.decide_page_size 10000 + 1)
            * (MMU.init PolicyEngine.default).policy_engine.decide_page_size 10000
            - 10000) :=
  allocate_charges_per_request_fragmentation (MMU.init PolicyEngine.default) 0 10000
    (by decide)

/-- Claim C7: after any sequence of TLB operations producing `h` hits and `m`
misses, `hit_rate()` returns `0` when `h = m = 0` and `⌊100·h/(h+m)⌋` otherwise,
and the result always lies in `[0, 100]` (the lower bound is inherent to `Nat`). -/
theorem hit_rate_formula_and_bounds (c : Nat) (ops : List TLBOp) :
    ((TLB.init c).run ops).hit_rate
      = (if ((TLB.init c).run ops).hits + ((TLB.init c).run ops).misses = 0 then 0
         else (100 * ((TLB.init c).run ops).hits)
              / (((TLB.init c).run ops).hits + ((TLB.init c).run ops).misses))
    ∧ ((TLB.init c).run ops).hit_rate ≤ 100 := by
  generalize (TLB.init c).run ops = t
  constructor
  · simp [TLB.hit_rate, Nat.mul_comm]
  · unfold TLB.hit_rate
    split
    · exact Nat.zero_le 100
    · calc t.hits * 100 / (t.hits + t.misses)
          ≤ (t.hits + t.misses) * 100 / (t.hits + t.misses) :=
            Nat.div_le_div_right (Nat.mul_le_mul_right _ (Nat.le_add_right _ _))
        _ = 100 := by
            rename_i hne
            exact Nat.mul_div_cancel_left 100 (Nat.pos_of_ne_zero hne)

/-- Claim C8: `decide_page_size` returns the small-page size in mode `"small"`,
the large-page size in mode `"large"`, in mode `"dynamic"` the large-page size
exactly when `request_size > threshold` and the small-page size otherwise, and
the small-page size for every other mode string without raising an error; as a
Lean function of its configuration and argument it is pure by construction. -/
theorem decide_page_size_spec (th sz : Nat) :
    (PolicyEngine.decide_page_size ⟨"small", th⟩ sz = SMALL_PAGE_SIZE)
    ∧ (PolicyEngine.decide_page_size ⟨"large", th⟩ sz = LARGE_PAGE_SIZE)
    ∧ (th < sz → PolicyEngine.decide_page_size ⟨"dynamic", th⟩ sz = LARGE_PAGE_SIZE)
    ∧ (sz ≤ th → PolicyEngine.decide_page_size ⟨"dynamic", th⟩ sz = SMALL_PAGE_SIZE)
    ∧ (∀ mode : String, mode ≠ "small" → mode ≠ "large" → mode ≠ "dynamic" →
        PolicyEngine.decide_page_size ⟨mode, th⟩ sz = SMALL_PAGE_SIZE) := by
  refine ⟨?_, ?_, ?_, ?_, ?_⟩
  · simp [PolicyEngine.decide_page_size]
  · simp [PolicyEngine.decide_page_size]
  · intro h; simp [PolicyEngine.decide_page_size, h]
  · intro h; simp [PolicyEngine.decide_page_size, Nat.not_lt.mpr h]
  · intro mode h1 h2 h3
    simp [PolicyEngine.decide_page_size, h1, h2, h3]

theorem decide_page_size_spec_witness :
    PolicyEngine.decide_page_size ⟨"dynamic", 100⟩ 101 = LARGE_PAGE_SIZE
    ∧ PolicyEngine.decide_page_size ⟨"dynamic", 100⟩ 100 = SMALL_PAGE_SIZE
    ∧ PolicyEngine.decide_page_size ⟨"huge", 100⟩ 7 = SMALL_PAGE_SIZE :=
  ⟨(decide_page_size_spec 100 101).2.2.1 (by decide),
   (decide_page_size_spec 100 100).2.2.2.1 (by decide),
   (decide_page_size_spec 100 7).2.2.2.2 ("huge") (by decide) (by decide) (by decide)⟩

theorem OrderedDict.synced_empty : OrderedDict.empty.Synced :=
  ⟨List.Perm.refl _, List.nodup_nil⟩

theorem OrderedDict.containsKey_iff (d : OrderedDict) (k : Nat) :
    d.containsKey k = true ↔ k ∈ d.map.map Prod.fst := by
  simp [OrderedDict.containsKey, List.any_eq_true, List.mem_map]

theorem OrderedDict.Synced.mem_order_iff {d : OrderedDict} (h : d.Synced) (k : Nat) :
    k ∈ d.order ↔ d.containsKey k = true := by
  rw [OrderedDict.containsKey_iff]
  exact (h.1.mem_iff).symm

theorem OrderedDict.setAssoc_of_not_mem {l : List (Nat × Nat)} {k : Nat} (v : Nat)
    (h : k ∉ l.map Prod.fst) : OrderedDict.setAssoc l k v = l ++ [(k, v)] := by
  induction l with
  | nil => rfl
  | cons p ps ih =>
    simp only [List.map_cons, List.mem_cons] at h
    push_neg at h
    simp [OrderedDict.setAssoc, Ne.symm h.1, ih h.2]

theorem OrderedDict.map_fst_setAssoc_of_mem {l : List (Nat × Nat)} {k : Nat} (v : Nat)
    (h : k ∈ l.map Prod.fst) :
    (OrderedDict.setAssoc l k v).map Prod.fst = l.map Prod.fst := by
  induction l with
  | nil => simp at h
  | cons p ps ih =>
    by_cases hk : p.1 = k
    · simp [OrderedDict.setAssoc, hk]
    · simp only [List.map_cons, List.mem_cons] at h
      rcases h with h | h
      · exact absurd h.symm hk
      · simp [OrderedDict.setAssoc, hk, ih h]

theorem OrderedDict.map_fst_eraseP (l : List (Nat × Nat)) (k : Nat) :
    (l.eraseP (fun p => p.1 == k)).map Prod.fst = (l.map Prod.fst).erase k := by
  induction l with
  | nil => rfl
  | cons p ps ih =>
    by_cases hk : p.1 = k
    · simp [List.eraseP_cons, hk, List.erase_cons]
    · simp [List.eraseP_cons, hk, List.erase_cons, ih, Ne.symm hk]

theorem OrderedDict.Synced.keys_nodup {d : OrderedDict} (h : d.Synced) :
    (d.map.map Prod.fst).Nodup :=
  (h.1.nodup_iff).mpr h.2

theorem OrderedDict.insert_synced {d : OrderedDict} (h : d.Synced) (k v : Nat) :
    (d.insert k v).Synced
    ∧ (d.insert k v).size = (if d.containsKey k then d.size else d.size + 1) := by
  by_cases hc : d.containsKey k = true
  · have hk : k ∈ d.map.map Prod.fst := (containsKey_iff d k).mp hc
    refine ⟨⟨?_, ?_⟩, ?_⟩
    · simpa [OrderedDict.insert, hc, map_fst_setAssoc_of_mem v hk] using h.1
    · simpa [OrderedDict.insert, hc] using h.2
    · have hlen := congrArg List.length (map_fst_setAssoc_of_mem v hk)
      simp only [List.length_map] at hlen
      simp [OrderedDict.insert, hc, OrderedDict.size, hlen]
  · have hk : k ∉ d.map.map Prod.fst := fun hm => hc ((containsKey_iff d k).mpr hm)
    have hko : k ∉ d.order := fun hm => hc ((h.mem_order_iff k).mp hm)
    refine ⟨⟨?_, ?_⟩, ?_⟩
    · simp only [OrderedDict.insert, hc, if_false, setAssoc_of_not_mem v hk,
        List.map_append]
      exact h.1.append_right _
    · simp only [OrderedDict.insert, hc, if_false]
      simp [List.nodup_append, h.2, hko]
    · simp [OrderedDict.insert, hc, OrderedDict.size, setAssoc_of_not_mem v hk]

theorem OrderedDict.erase_synced {d : OrderedDict} (h : d.Synced) (k : Nat) :
    (d.erase k).Synced
    ∧ (d.erase k).size = (if d.containsKey k then d.size - 1 else d.size)
    ∧ (d.erase k).map.map Prod.fst = (d.map.map Prod.fst).erase k := by
  by_cases hc : d.containsKey k = true
  · have hk : k ∈ d.map.map Prod.fst := (containsKey_iff d k).mp hc
    refine ⟨⟨?_, ?_⟩, ?_, ?_⟩
    · simpa [OrderedDict.erase, hc, map_fst_eraseP] using h.1.erase k
    · simpa [OrderedDict.erase, hc] using h.2.erase k
    · have hlen := congrArg List.length (map_fst_eraseP d.map k)
      simp only [List.length_map] at hlen
      simp [OrderedDict.erase, hc, OrderedDict.size, hlen,
        List.length_erase_of_mem hk]
    · simp [OrderedDict.erase, hc, map_fst_eraseP]
  · have hk : k ∉ d.map.map Prod.fst := fun hm => hc ((containsKey_iff d k).mpr hm)
    refine ⟨?_, ?_, ?_⟩
    · simpa [OrderedDict.erase, hc] using h
    · simp [OrderedDict.erase, hc]
    · rw [OrderedDict.erase, if_neg hc]
      exact (List.erase_of_not_mem hk).symm

theorem OrderedDict.erase_not_contains {d : OrderedDict} (h : d.Synced) (k : Nat) :
    ¬ (d.erase k).containsKey k = true := by
  intro ht
  have hmem := (containsKey_iff _ k).mp ht
  rw [(erase_synced h k).2.2] at hmem
  by_cases hc : k ∈ d.map.map Prod.fst
  · exact ((List.Nodup.mem_erase_iff h.keys_nodup).mp hmem).1 rfl
  · exact hc (List.mem_of_mem_erase hmem)

theorem OrderedDict.move_to_end_synced {d : OrderedDict} (h : d.Synced) (k : Nat) :
    (d.move_to_end k).Synced ∧ (d.move_to_end k).map = d.map := by
  by_cases hk : k ∈ d.order
  · refine ⟨⟨?_, ?_⟩, ?_⟩
    · rw [OrderedDict.move_to_end, if_pos hk]
      show (d.map.map Prod.fst).Perm (d.order.erase k ++ [k])
      exact (h.1.trans (List.perm_cons_erase hk)).trans
        (@List.perm_append_comm _ [k] (d.order.erase k))
    · rw [OrderedDict.move_to_end, if_pos hk]
      have hne : k ∉ d.order.erase k := fun hmem =>
        ((List.Nodup.mem_erase_iff h.2).mp hmem).1 rfl
      simp [List.nodup_append, h.2.erase k, hne]
    · rw [OrderedDict.move_to_end, if_pos hk]
  · rw [OrderedDict.move_to_end, if_neg hk]
    exact ⟨h, rfl⟩

theorem OrderedDict.erase_contains_subset {d : OrderedDict} {k' v : Nat}
    (h : (d.erase k').containsKey v = true) : d.containsKey v = true := by
  unfold OrderedDict.erase at h
  split at h
  · simp only [OrderedDict.containsKey, List.any_eq_true] at h ⊢
    obtain ⟨p, hp, hpv⟩ := h
    exact ⟨p, List.mem_of_mem_eraseP hp, hpv⟩
  · exact h

theorem OrderedDict.size_pos_of_contains {d : OrderedDict} {k : Nat}
    (h : d.containsKey k = true) : 1 ≤ d.size := by
  rw [containsKey_iff] at h
  obtain ⟨p, hp, -⟩ := List.mem_map.mp h
  exact Nat.succ_le_of_lt (List.length_pos_of_mem hp)

theorem OrderedDict.order_ne_nil_of_size_pos {d : OrderedDict} (hs : d.Synced)
    (h : 1 ≤ d.size) : d.order ≠ [] := by
  intro hnil
  have hlen : d.order.length = d.map.length := by
    have := hs.1.length_eq
    simpa [List.length_map] using this.symm
  rw [hnil] at hlen
  simp only [List.length_nil] at hlen
  unfold OrderedDict.size at h
  omega

theorem OrderedDict.contains_insert {d : OrderedDict} {k : Nat} (v x : Nat)
    (hk : ¬ d.containsKey k = true) :
    ((d.insert k v).containsKey x) = (d.containsKey x || x == k) := by
  have hkm : k ∉ d.map.map Prod.fst := fun hm => hk ((containsKey_iff d k).mpr hm)
  simp only [OrderedDict.insert, if_neg hk, setAssoc_of_not_mem v hkm]
  simp only [OrderedDict.containsKey, List.any_append, List.any_cons, List.any_nil,
    Bool.or_false]
  by_cases hxk : x = k
  · subst hxk
    simp
  · have h1 : (k == x) = false := beq_eq_false_iff_ne.mpr (Ne.symm hxk)
    have h2 : (x == k) = false := beq_eq_false_iff_ne.mpr hxk
    simp [h1, h2]

theorem TLB.insert_inv {t : TLB} (v f : Nat)
    (hs : t.cache.Synced) (hsz : t.cache.size ≤ t.size) (hpos : 1 ≤ t.size) :
    (t.insert v f).cache.Synced ∧ (t.insert v f).cache.size ≤ t.size
    ∧ (t.insert v f).size = t.size := by
  by_cases hc : t.cache.containsKey v = true
  · have hed := OrderedDict.erase_synced hs v
    have hne := OrderedDict.erase_not_contains hs v
    have hins := OrderedDict.insert_synced hed.1 v f
    have hpos' : 1 ≤ t.cache.size := OrderedDict.size_pos_of_contains hc
    simp only [TLB.insert, if_pos hc]
    refine ⟨hins.1, ?_, trivial⟩
    rw [hins.2, if_neg hne, hed.2.1, if_pos hc]
    omega
  · by_cases hcap : t.size ≤ t.cache.size
    · have hposc : 1 ≤ t.cache.size := le_trans hpos hcap
      have horder := OrderedDict.order_ne_nil_of_size_pos hs hposc
      have hmem : t.cache.order.headD 0 ∈ t.cache.order := by
        cases ho : t.cache.order with
        | nil => exact absurd ho horder
        | cons a l => simp [ho]
      have hca : t.cache.containsKey (t.cache.order.headD 0) = true :=
        (hs.mem_order_iff _).mp hmem
      have hed := OrderedDict.erase_synced hs (t.cache.order.headD 0)
      have hnc : ¬ (t.cache.erase (t.cache.order.headD 0)).containsKey v = true :=
        fun hcc => hc (OrderedDict.erase_contains_subset hcc)
      have hins := OrderedDict.insert_synced hed.1 v f
      simp only [TLB.insert, if_neg hc, if_pos hcap]
      refine ⟨hins.1, ?_, trivial⟩
      rw [hins.2, if_neg hnc, hed.2.1, if_pos hca]
      omega
    · have hins := OrderedDict.insert_synced hs v f
      simp only [TLB.insert, if_neg hc, if_neg hcap]
      refine ⟨hins.1, ?_, trivial⟩
      rw [hins.2, if_neg hc]
      omega

theorem OrderedDict.move_to_end_map (d : OrderedDict) (k : Nat) :
    (d.move_to_end k).map = d.map := by
  unfold OrderedDict.move_to_end
  split <;> rfl

theorem TLB.lookup_inv (t : TLB) (v : Nat) :
    ((t.lookup v).2).cache.map = t.cache.map
    ∧ (t.cache.Synced → ((t.lookup v).2).cache.Synced)
    ∧ ((t.lookup v).2).size = t.size := by
  by_cases hc : t.cache.containsKey v = true
  · simp only [TLB.lookup, if_pos hc]
    exact ⟨OrderedDict.move_to_end_map _ _,
      fun h => (OrderedDict.move_to_end_synced h v).1, trivial⟩
  · simp only [TLB.lookup, if_neg hc]
    exact ⟨trivial, fun h => h, trivial⟩

theorem TLB.run_inv (c : Nat) (hc : 1 ≤ c) :
    ∀ (ops : List TLBOp) (t : TLB), t.size = c → t.cache.Synced → t.cache.size ≤ c →
      (t.run ops).size = c ∧ (t.run ops).cache.Synced ∧ (t.run ops).cache.size ≤ c := by
  intro ops
  induction ops with
  | nil => intro t h1 h2 h3; exact ⟨h1, h2, h3⟩
  | cons op ops ih =>
    intro t h1 h2 h3
    cases op with
    | ins vpn fr =>
      have h := @TLB.insert_inv t vpn fr h2 (by rw [h1]; exact h3)
        (by rw [h1]; exact hc)
      exact ih _ (h.2.2.trans h1) h.1 (le_trans h.2.1 (le_of_eq h1))
    | look vpn =>
      have h := TLB.lookup_inv t vpn
      have hsz : ((t.lookup vpn).2).cache.size = t.cache.size := by
        unfold OrderedDict.size
        rw [h.1]
      exact ih _ (h.2.2.trans h1) (h.2.1 h2) (le_trans (le_of_eq hsz) h3)

/-- Claim C3: for every sequence of TLB insert and lookup operations on a
`TLB` constructed with capacity `c` (positive, as is the simulator's
`TLB_SIZE = 64`), the number of cached entries never exceeds `c`. -/
theorem tlb_capacity_never_exceeded (c : Nat) (hc : 1 ≤ c) (ops : List TLBOp) :
    ((TLB.init c).run ops).cache.size ≤ c :=
  (TLB.run_inv c hc ops (TLB.init c) rfl OrderedDict.synced_empty (Nat.zero_le c)).2.2

theorem tlb_capacity_never_exceeded_witness :
    ((TLB.init 64).run
      [TLBOp.ins 1 2, TLBOp.ins 1 3, TLBOp.look 1, TLBOp.ins 5 6]).cache.size ≤ 64 :=
  tlb_capacity_never_exceeded 64 (by decide) _

theorem TLB.run_append :
    ∀ (l1 l2 : List TLBOp) (t : TLB), t.run (l1 ++ l2) = (t.run l1).run l2 := by
  intro l1
  induction l1 with
  | nil => intro l2 t; rfl
  | cons op l1 ih =>
    intro l2 t
    cases op with
    | ins vpn fr => simpa only [List.cons_append, TLB.run] using ih l2 _
    | look vpn => simpa only [List.cons_append, TLB.run] using ih l2 _

theorem TLB.insert_fresh_room_cache {t : TLB} {v : Nat} (f : Nat)
    (hc : ¬ t.cache.containsKey v = true) (hlt : t.cache.size < t.size) :
    (t.insert v f).cache = t.cache.insert v f := by
  simp only [TLB.insert, if_neg hc, if_neg (Nat.not_le.mpr hlt)]

theorem TLB.run_ins_fresh :
    ∀ (ps : List (Nat × Nat)) (t : TLB),
      t.cache.Synced →
      (∀ k ∈ ps.map Prod.fst, ¬ t.cache.containsKey k = true) →
      (ps.map Prod.fst).Nodup →
      t.cache.size + ps.length ≤ t.size →
      (t.run (ps.map fun p => TLBOp.ins p.1 p.2)).cache.map = t.cache.map ++ ps
      ∧ (t.run (ps.map fun p => TLBOp.ins p.1 p.2)).cache.order
          = t.cache.order ++ ps.map Prod.fst
      ∧ (t.run (ps.map fun p => TLBOp.ins p.1 p.2)).size = t.size
      ∧ (t.run (ps.map fun p => TLBOp.ins p.1 p.2)).cache.Synced := by
  intro ps
  induction ps with
  | nil => intro t hs _ _ _; exact ⟨by simp [TLB.run], by simp [TLB.run], rfl, hs⟩
  | cons p ps ih =>
    intro t hs hfresh hnd hroom
    have hcp : ¬ t.cache.containsKey p.1 = true := hfresh p.1 (by simp)
    have hlt : t.cache.size < t.size := by
      simp only [List.length_cons] at hroom
      omega
    have hcache := TLB.insert_fresh_room_cache p.2 hcp hlt
    have hkm : p.1 ∉ t.cache.map.map Prod.fst :=
      fun hm => hcp ((OrderedDict.containsKey_iff _ _).mpr hm)
    have hmap : (t.insert p.1 p.2).cache.map = t.cache.map ++ [p] := by
      rw [hcache]
      simp [OrderedDict.insert, OrderedDict.setAssoc_of_not_mem p.2 hkm]
    have horder : (t.insert p.1 p.2).cache.order = t.cache.order ++ [p.1] := by
      rw [hcache]
      simp [OrderedDict.insert, hcp]
    have hsize : (t.insert p.1 p.2).size = t.size := rfl
    have hsynced : (t.insert p.1 p.2).cache.Synced := by
      rw [hcache]
      exact (OrderedDict.insert_synced hs p.1 p.2).1
    have hcsize : (t.insert p.1 p.2).cache.size = t.cache.size + 1 := by
      unfold OrderedDict.size
      rw [hmap]
      simp
    simp only [List.map_cons, List.nodup_cons] at hnd
    have hfresh' : ∀ k ∈ ps.map Prod.fst,
        ¬ (t.insert p.1 p.2).cache.containsKey k = true := by
      intro k hk hcontra
      rw [hcache, OrderedDict.contains_insert p.2 k hcp] at hcontra
      rcases Bool.or_eq_true_iff.mp hcontra with h | h
      · exact hfresh k (List.mem_cons_of_mem _ hk) h
      · exact hnd.1 (beq_iff_eq.mp h ▸ hk)
    have hstep := ih (t.insert p.1 p.2) hsynced hfresh' hnd.2
      (by
        rw [hcsize, hsize]
        simp only [List.length_cons] at hroom
        omega)
    simp only [List.map_cons, TLB.run]
    refine ⟨?_, ?_, ?_, hstep.2.2.2⟩
    · rw [hstep.1, hmap, List.append_assoc, List.singleton_append]
    · rw [hstep.2.1, horder, List.append_assoc, List.singleton_append]
    · rw [hstep.2.2.1, hsize]

theorem TLB.order_cons_of_size_pos {t : TLB} (hs : t.cache.Synced)
    (hpos : 1 ≤ t.cache.size) :
    t.cache.order = t.cache.order.headD 0 :: t.cache.order.tail := by
  have hne := OrderedDict.order_ne_nil_of_size_pos hs hpos
  cases ho : t.cache.order with
  | nil => exact absurd ho hne
  | cons x l => rfl

theorem TLB.insert_at_capacity {t : TLB} {v : Nat} (f : Nat)
    (hs : t.cache.Synced) (hc : ¬ t.cache.containsKey v = true)
    (hpos : 1 ≤ t.cache.size) (hcap : t.size ≤ t.cache.size) :
    (t.insert v f).cache.map
      = t.cache.map.eraseP (fun p => p.1 == t.cache.order.headD 0) ++ [(v, f)]
    ∧ (t.insert v f).cache.order = t.cache.order.tail ++ [v]
    ∧ (t.insert v f).cache.containsKey (t.cache.order.headD 0) = false := by
  have hcons := TLB.order_cons_of_size_pos hs hpos
  have hmem : t.cache.order.headD 0 ∈ t.cache.order := by
    rw [hcons]
    exact List.mem_cons_self _ _
  have hca : t.cache.containsKey (t.cache.order.headD 0) = true :=
    (hs.mem_order_iff _).mp hmem
  have hbranch : (t.insert v f).cache
      = (t.cache.erase (t.cache.order.headD 0)).insert v f := by
    simp only [TLB.insert, if_neg hc, if_pos hcap]
  have herase1 : (t.cache.erase (t.cache.order.headD 0)).map
      = t.cache.map.eraseP (fun p => p.1 == t.cache.order.headD 0) := by
    rw [OrderedDict.erase, if_pos hca]
  have herase2 : (t.cache.erase (t.cache.order.headD 0)).order
      = t.cache.order.tail := by
    rw [OrderedDict.erase, if_pos hca]
    show t.cache.order.erase (t.cache.order.headD 0) = t.cache.order.tail
    conv_lhs => rw [hcons]
    exact List.erase_cons_head _ _
  have hvc : ¬ (t.cache.erase (t.cache.order.headD 0)).containsKey v = true :=
    fun hh => hc (OrderedDict.erase_contains_subset hh)
  have hkm : v ∉ (t.cache.erase (t.cache.order.headD 0)).map.map Prod.fst :=
    fun hm => hvc ((OrderedDict.containsKey_iff _ _).mpr hm)
  refine ⟨?_, ?_, ?_⟩
  · rw [hbranch]
    show OrderedDict.setAssoc _ v f = _
    rw [OrderedDict.setAssoc_of_not_mem f hkm, herase1]
  · rw [hbranch]
    show (if _ then _ else _) = _
    rw [if_neg hvc, herase2]
  · rw [hbranch, OrderedDict.contains_insert f _ hvc]
    have h1 : (t.cache.erase (t.cache.order.headD 0)).containsKey
        (t.cache.order.headD 0) = false :=
      Bool.eq_false_iff.mpr (OrderedDict.erase_not_contains hs _)
    have h2 : (t.cache.order.headD 0 == v) = false := by
      refine beq_eq_false_iff_ne.mpr ?_
      intro he
      exact hc (he ▸ hca)
    rw [h1, h2]
    rfl

/-- Claim C4: inserting `capacity + 1` distinct VPNs into an empty TLB with no
intervening lookups evicts exactly the first-inserted VPN: it is no longer
cached, all later-inserted VPNs are, the order sequence lists the survivors in
insertion order, and a subsequent lookup of the first VPN is a miss (returns the
miss sentinel and increments the miss counter). Moreover — last conjunct — the
entry evicted by any insert of a fresh VPN at capacity is always the front of
the order sequence (least recently touched, ties broken by insertion order). -/
theorem lru_capacity_plus_one_evicts_first_inserted (p0 plast : Nat × Nat)
    (mid : List (Nat × Nat))
    (hnd : (((p0 :: mid) ++ [plast]).map Prod.fst).Nodup) :
    ((lruScenario p0 plast mid).cache.containsKey p0.1 = false)
    ∧ (∀ p ∈ mid ++ [plast],
        (lruScenario p0 plast mid).cache.containsKey p.1 = true)
    ∧ ((lruScenario p0 plast mid).cache.order = (mid ++ [plast]).map Prod.fst)
    ∧ (((lruScenario p0 plast mid).lookup p0.1).1 = none)
    ∧ (((lruScenario p0 plast mid).lookup p0.1).2.misses
        = (lruScenario p0 plast mid).misses + 1)
    ∧ (∀ (t : TLB) (k v : Nat), t.cache.Synced → ¬ t.cache.containsKey k = true →
        1 ≤ t.cache.size → t.size ≤ t.cache.size →
        (t.insert k v).cache.order = t.cache.order.tail ++ [k]
        ∧ (t.insert k v).cache.containsKey (t.cache.order.headD 0) = false) := by
  rw [List.map_append] at hnd
  have nodup1 : ((p0 :: mid).map Prod.fst).Nodup := hnd.of_append_left
  have hplast_notin : plast.1 ∉ (p0 :: mid).map Prod.fst := by
    intro hm
    exact (List.disjoint_of_nodup_append hnd) hm (by simp)
  have hsplit : lruScenario p0 plast mid
      = ((TLB.init (mid.length + 1)).run
          ((p0 :: mid).map fun p => TLBOp.ins p.1 p.2)).insert plast.1 plast.2 := by
    unfold lruScenario
    rw [List.map_append, TLB.run_append]
    rfl
  have hfold := TLB.run_ins_fresh (p0 :: mid) (TLB.init (mid.length + 1))
    OrderedDict.synced_empty
    (by intro k _; simp [TLB.init, OrderedDict.empty, OrderedDict.containsKey])
    nodup1
    (by simp [TLB.init, OrderedDict.empty, OrderedDict.size])
  generalize ht1 : (TLB.init (mid.length + 1)).run
      ((p0 :: mid).map fun p => TLBOp.ins p.1 p.2) = t1 at hsplit hfold
  have hmap1 : t1.cache.map = p0 :: mid := by
    simpa [TLB.init, OrderedDict.empty] using hfold.1
  have horder1 : t1.cache.order = p0.1 :: mid.map Prod.fst := by
    simpa [TLB.init, OrderedDict.empty] using hfold.2.1
  have hsize1 : t1.size = mid.length + 1 := hfold.2.2.1
  have hsynced1 : t1.cache.Synced := hfold.2.2.2
  have hcsize1 : t1.cache.size = mid.length + 1 := by
    unfold OrderedDict.size
    rw [hmap1]
    simp
  have hheadD : t1.cache.order.headD 0 = p0.1 := by rw [horder1]; rfl
  have htail : t1.cache.order.tail = mid.map Prod.fst := by rw [horder1]; rfl
  have hcp : ¬ t1.cache.containsKey plast.1 = true := by
    rw [OrderedDict.containsKey_iff, hmap1]
    exact hplast_notin
  have hfin := TLB.insert_at_capacity plast.2 hsynced1 hcp
    (by rw [hcsize1]; omega) (by rw [hsize1, hcsize1])
  have hmap2 : (t1.insert plast.1 plast.2).cache.map = mid ++ [plast] := by
    rw [hfin.1, hheadD, hmap1,
      @List.eraseP_cons_of_pos _ p0 mid (fun q => q.1 == p0.1) (by simp)]
  have horder2 : (t1.insert plast.1 plast.2).cache.order
      = (mid ++ [plast]).map Prod.fst := by
    rw [hfin.2.1, htail, List.map_append]
    rfl
  have hgone : (t1.insert plast.1 plast.2).cache.containsKey p0.1 = false := by
    rw [← hheadD]
    exact hfin.2.2
  rw [hsplit]
  refine ⟨hgone, ?_, horder2, ?_, ?_, ?_⟩
  · intro p hp
    rw [OrderedDict.containsKey_iff, hmap2]
    exact List.mem_map_of_mem Prod.fst hp
  · rw [TLB.lookup, if_neg (by rw [hgone]; exact Bool.false_ne_true)]
  · rw [TLB.lookup, if_neg (by rw [hgone]; exact Bool.false_ne_true)]
  · intro t k v hs hc hpos hcap
    have h := TLB.insert_at_capacity v hs hc hpos hcap
    exact ⟨h.2.1, Bool.eq_false_iff.mpr
      (fun htrue => (Bool.eq_false_iff.mp h.2.2) htrue)⟩

theorem lru_capacity_plus_one_evicts_first_inserted_witness :
    ((lruScenario (1, 10) (3, 30) [(2, 20)]).cache.containsKey 1 = false)
    ∧ (((lruScenario (1, 10) (3, 30) [(2, 20)]).lookup 1).1 = none) :=
  have h := lru_capacity_plus_one_evicts_first_inserted (1, 10) (3, 30) [(2, 20)]
    (by decide)
  ⟨h.1, h.2.2.2.1⟩

/-! ## Frame-allocator correctness -/

theorem FreeRun.not_of_true {f : Nat → Bool} {k s p : Nat} (hp : f p = true)
    (h1 : s ≤ p) (h2 : p < s + k) : ¬ FreeRun f k s := by
  intro hr
  have hj := hr (p - s) (by omega)
  rw [Nat.add_sub_cancel' h1] at hj
  rw [hj] at hp
  exact Bool.false_ne_true hp

theorem findFirstFree_spec (f : Nat → Bool) :
    ∀ (r i : Nat),
      (∀ s, findFirstFree f i r = some s →
          i ≤ s ∧ s < i + r ∧ f s = false ∧ (∀ j, i ≤ j → j < s → f j = true))
      ∧ (findFirstFree f i r = none → ∀ j, i ≤ j → j < i + r → f j = true) := by
  intro r
  induction r with
  | zero =>
    intro i
    refine ⟨fun s hs => by simp [findFirstFree] at hs, fun _ j h1 h2 => ?_⟩
    exact absurd h2 (by omega)
  | succ r ih =>
    intro i
    by_cases hfi : f i = false
    · refine ⟨fun s hs => ?_, fun hn => ?_⟩
      · rw [findFirstFree, if_pos hfi] at hs
        cases hs
        exact ⟨le_refl i, by omega, hfi, fun j h1 h2 => absurd h2 (by omega)⟩
      · rw [findFirstFree, if_pos hfi] at hn
        cases hn
    · have hft : f i = true := by revert hfi; cases f i <;> simp
      refine ⟨fun s hs => ?_, fun hn j h1 h2 => ?_⟩
      · rw [findFirstFree, if_neg hfi] at hs
        obtain ⟨ha, hb, hc, hd⟩ := (ih (i + 1)).1 s hs
        refine ⟨by omega, by omega, hc, fun j h1 h2 => ?_⟩
        rcases Nat.lt_or_ge j (i + 1) with hj | hj
        · have : j = i := by omega
          rw [this]
          exact hft
        · exact hd j hj h2
      · rw [findFirstFree, if_neg hfi] at hn
        rcases Nat.lt_or_ge j (i + 1) with hj | hj
        · have : j = i := by omega
          rw [this]
          exact hft
        · exact (ih (i + 1)).2 hn j hj (by omega)

theorem findRun_go_spec (f : Nat → Bool) (k : Nat) (hk : 1 ≤ k) :
    ∀ (r i count : Nat) (start : Option Nat),
      count < k → count ≤ i →
      (∀ j, i - count ≤ j → j < i → f j = false) →
      (start = if count = 0 then none else some (i - count)) →
      (i - count = 0 ∨ f (i - count - 1) = true) →
      (∀ s, s + k ≤ i → ¬ FreeRun f k s) →
      (∀ s, findRun f k i count start r = some s →
          s + k ≤ i + r ∧ FreeRun f k s ∧ (∀ s', s' < s → ¬ FreeRun f k s'))
      ∧ (findRun f k i count start r = none →
          ∀ s, s + k ≤ i + r → ¬ FreeRun f k s) := by
  intro r
  induction r with
  | zero =>
    intro i count start _ _ _ _ _ h6
    refine ⟨fun s hs => by simp [findRun] at hs, fun _ s hs => h6 s (by omega)⟩
  | succ r ih =>
    intro i count start h1 h2 h3 h4 h5 h6
    by_cases hfi : f i = false
    · -- frame i is free: streak grows to count + 1
      have hstep : findRun f k i count start (r + 1)
          = if count + 1 = k then (if count = 0 then some i else start)
            else findRun f k (i + 1) (count + 1)
              (if count = 0 then some i else start) r := by
        rw [findRun]
        simp only [hfi, if_true]
      by_cases hck : count + 1 = k
      · -- the streak completes here: return the recorded start
        have hs_eq : (if count = 0 then some i else start) = some (i - count) := by
          by_cases hc0 : count = 0
          · rw [if_pos hc0, hc0]
            rfl
          · rw [if_neg hc0, h4, if_neg hc0]
        rw [hstep, if_pos hck, hs_eq]
        refine ⟨fun s hs => ?_, fun hn => by cases hn⟩
        cases hs
        refine ⟨by omega, ?_, ?_⟩
        · intro j hj
          rcases Nat.lt_or_ge j count with hjc | hjc
          · exact h3 (i - count + j) (by omega) (by omega)
          · have : i - count + j = i := by omega
            rw [this]
            exact hfi
        · intro s' hs'
          exact h6 s' (by omega)
      · -- streak not yet long enough: continue the scan
        rw [hstep, if_neg hck]
        have harith : i + 1 - (count + 1) = i - count := by omega
        have hr := ih (i + 1) (count + 1) (if count = 0 then some i else start)
          (by omega) (by omega)
          (by
            intro j hj1 hj2
            rcases Nat.lt_or_ge j i with hji | hji
            · exact h3 j (by omega) hji
            · have : j = i := by omega
              rw [this]
              exact hfi)
          (by
            rw [harith]
            by_cases hc0 : count = 0
            · rw [if_pos hc0, hc0]
              simp
            · rw [if_neg hc0, h4, if_neg hc0]
              simp)
          (by rw [harith]; exact h5)
          (by
            intro s hs
            rcases Nat.lt_or_ge (s + k) (i + 1) with hsk | hsk
            · exact h6 s (by omega)
            · -- s + k = i + 1 : the run would have to cross the streak's left edge
              have hsk' : s + k = i + 1 := by omega
              have hslt : s < i - count := by omega
              rcases h5 with h5 | h5
              · exact absurd hslt (by omega)
              · exact FreeRun.not_of_true h5 (by omega) (by omega))
        refine ⟨fun s hs => ?_, fun hn s hs => ?_⟩
        · obtain ⟨ha, hb, hc⟩ := hr.1 s hs
          exact ⟨by omega, hb, hc⟩
        · exact hr.2 hn s (by omega)
    · -- frame i is allocated: the streak resets
      have hft : f i = true := by revert hfi; cases f i <;> simp
      have hstep : findRun f k i count start (r + 1)
          = findRun f k (i + 1) 0 none r := by
        rw [findRun]
        simp only [hfi, if_false]
        exact if_neg (show ¬ (0 = k) by omega)
      rw [hstep]
      have hr := ih (i + 1) 0 none (by omega) (by omega)
        (fun j hj1 hj2 => absurd hj2 (by omega))
        (by simp)
        (Or.inr (by simpa using hft))
        (by
          intro s hs
          rcases Nat.lt_or_ge (s + k) (i + 1) with hsk | hsk
          · exact h6 s (by omega)
          · exact FreeRun.not_of_true hft (by omega) (by omega))
      refine ⟨fun s hs => ?_, fun hn s hs => ?_⟩
      · obtain ⟨ha, hb, hc⟩ := hr.1 s hs
        exact ⟨by omega, hb, hc⟩
      · exact hr.2 hn s (by omega)

/-- Claim C5: for every frame-bitmap state `f` (of `n` frames) and every
`k ≥ 1`, `find_and_allocate_physical_frames(k)` succeeds if and only if a run of
`k` consecutive free frames exists; on success the returned start index begins a
span of `k` frames that were all free before the call, that span is the leftmost
such run (first-fit), and exactly those `k` frames become allocated; on failure
it returns the failure sentinel and leaves the bitmap unchanged. -/
theorem find_and_allocate_frames_first_fit (n k : Nat) (f : Nat → Bool)
    (hk : 1 ≤ k) :
    (∀ s, (findAndAllocateFrames n f k).1 = some s →
        s + k ≤ n ∧ FreeRun f k s ∧ (∀ s', s' < s → ¬ FreeRun f k s')
        ∧ (∀ j, (findAndAllocateFrames n f k).2 j
            = if s ≤ j ∧ j < s + k then true else f j))
    ∧ ((findAndAllocateFrames n f k).1 = none →
        (∀ s, s + k ≤ n → ¬ FreeRun f k s)
        ∧ (findAndAllocateFrames n f k).2 = f) := by
  by_cases hk1 : k = 1
  · subst hk1
    have hspec := findFirstFree_spec f n 0
    cases hff : findFirstFree f 0 n with
    | some i =>
      have heq1 : (findAndAllocateFrames n f 1).1 = some i := by
        unfold findAndAllocateFrames
        rw [if_pos rfl, hff]
      have heq2 : (findAndAllocateFrames n f 1).2
          = fun j => if j = i then true else f j := by
        unfold findAndAllocateFrames
        rw [if_pos rfl, hff]
      obtain ⟨-, hlt, hfree, hprev⟩ := hspec.1 i hff
      refine ⟨fun s hs => ?_, fun hn => ?_⟩
      · rw [heq1] at hs
        injection hs with hs
        subst hs
        refine ⟨by omega, ?_, ?_, ?_⟩
        · intro j hj
          have hj0 : j = 0 := by omega
          rw [hj0, Nat.add_zero]
          exact hfree
        · intro s' hs' hrun
          have h0 := hrun 0 (by omega)
          rw [Nat.add_zero] at h0
          rw [hprev s' (by omega) hs'] at h0
          cases h0
        · intro j
          rw [heq2]
          show (if j = i then true else f j) = _
          by_cases hji : j = i
          · rw [if_pos hji, if_pos (show i ≤ j ∧ j < i + 1 by omega)]
          · rw [if_neg hji, if_neg (show ¬ (i ≤ j ∧ j < i + 1) by omega)]
      · rw [heq1] at hn
        cases hn
    | none =>
      have heq1 : (findAndAllocateFrames n f 1).1 = none := by
        unfold findAndAllocateFrames
        rw [if_pos rfl, hff]
      have heq2 : (findAndAllocateFrames n f 1).2 = f := by
        unfold findAndAllocateFrames
        rw [if_pos rfl, hff]
      refine ⟨fun s hs => ?_, fun _ => ⟨fun s hs hrun => ?_, heq2⟩⟩
      · rw [heq1] at hs
        cases hs
      · have h0 := hrun 0 (by omega)
        rw [Nat.add_zero] at h0
        rw [hspec.2 hff s (by omega) (by omega)] at h0
        cases h0
  · have hspec := findRun_go_spec f k hk n 0 0 none (by omega) (by omega)
      (fun j hj1 hj2 => absurd hj2 (by omega)) rfl (Or.inl rfl)
      (fun s hs => absurd hs (by omega))
    cases hfr : findRun f k 0 0 none n with
    | some s0 =>
      have heq1 : (findAndAllocateFrames n f k).1 = some s0 := by
        unfold findAndAllocateFrames
        rw [if_neg hk1, hfr]
      have heq2 : (findAndAllocateFrames n f k).2 = markRange f s0 k := by
        unfold findAndAllocateFrames
        rw [if_neg hk1, hfr]
      obtain ⟨ha, hb, hc⟩ := hspec.1 s0 hfr
      refine ⟨fun s hs => ?_, fun hn => ?_⟩
      · rw [heq1] at hs
        injection hs with hs
        subst hs
        refine ⟨by omega, hb, hc, fun j => ?_⟩
        rw [heq2]
        rfl
      · rw [heq1] at hn
        cases hn
    | none =>
      have heq1 : (findAndAllocateFrames n f k).1 = none := by
        unfold findAndAllocateFrames
        rw [if_neg hk1, hfr]
      have heq2 : (findAndAllocateFrames n f k).2 = f := by
        unfold findAndAllocateFrames
        rw [if_neg hk1, hfr]
      refine ⟨fun s hs => ?_, fun _ => ⟨fun s hs => hspec.2 hfr s (by omega), heq2⟩⟩
      rw [heq1] at hs
      cases hs

theorem find_and_allocate_frames_first_fit_witness :
    (∀ s, (findAndAllocateFrames 4 (fun j => j == 1) 2).1 = some s →
        s + 2 ≤ 4 ∧ FreeRun (fun j => j == 1) 2 s
        ∧ (∀ s', s' < s → ¬ FreeRun (fun j => j == 1) 2 s')
        ∧ (∀ j, (findAndAllocateFrames 4 (fun j => j == 1) 2).2 j
            = if s ≤ j ∧ j < s + 2 then true else (fun j => j == 1) j))
    ∧ ((findAndAllocateFrames 4 (fun j => j == 1) 2).1 = none →
        (∀ s, s + 2 ≤ 4 → ¬ FreeRun (fun j => j == 1) 2 s)
        ∧ (findAndAllocateFrames 4 (fun j => j == 1) 2).2 = (fun j => j == 1)) :=
  find_and_allocate_frames_first_fit 4 2 (fun j => j == 1) (by decide)

/-! ## The per-page allocation loop -/

theorem MMU.allocPages_fields (ps first : Nat) :
    ∀ (r i : Nat) (m : MMU),
      (MMU.allocPages ps first m i r).1.tlb = m.tlb
      ∧ (MMU.allocPages ps first m i r).1.policy_engine = m.policy_engine
      ∧ (MMU.allocPages ps first m i r).1.num_frames = m.num_frames := by
  intro r
  induction r with
  | zero => intro i m; exact ⟨rfl, rfl, rfl⟩
  | succ r ih =>
    intro i m
    simp only [MMU.allocPages]
    cases hpt : m.page_table (first + i) with
    | some e => simpa [hpt] using ih (i + 1) m
    | none =>
      cases hres : (findAndAllocateFrames m.num_frames m.physical_frames
          (ps / SMALL_PAGE_SIZE)).1 with
      | none => simp [hpt, hres]
      | some pfn => simpa [hpt, hres] using ih (i + 1) _

theorem MMU.allocPages_pt_mono (ps first : Nat) :
    ∀ (r i : Nat) (m : MMU) (vpn : Nat) (e : Nat × Nat),
      m.page_table vpn = some e →
      (MMU.allocPages ps first m i r).1.page_table vpn = some e := by
  intro r
  induction r with
  | zero => intro i m vpn e h; exact h
  | succ r ih =>
    intro i m vpn e h
    simp only [MMU.allocPages]
    cases hpt : m.page_table (first + i) with
    | some e' =>
      simp only [hpt]
      exact ih (i + 1) m vpn e h
    | none =>
      cases hres : (findAndAllocateFrames m.num_frames m.physical_frames
          (ps / SMALL_PAGE_SIZE)).1 with
      | none => simp only [hpt, hres]; exact h
      | some pfn =>
        simp only [hpt, hres]
        apply ih (i + 1)
        have hne : vpn ≠ first + i := by
          intro hv
          rw [hv, hpt] at h
          cases h
        show (if vpn = first + i then some (pfn, ps) else m.page_table vpn) = some e
        rw [if_neg hne]
        exact h

theorem MMU.allocPages_pt_frame (ps first : Nat) :
    ∀ (r i : Nat) (m : MMU) (vpn : Nat),
      (MMU.allocPages ps first m i r).1.page_table vpn ≠ m.page_table vpn →
      first + i ≤ vpn ∧ vpn < first + i + r := by
  intro r
  induction r with
  | zero => intro i m vpn h; exact absurd rfl h
  | succ r ih =>
    intro i m vpn h
    simp only [MMU.allocPages] at h
    cases hpt : m.page_table (first + i) with
    | some e' =>
      rw [hpt] at h
      have := ih (i + 1) m vpn h
      omega
    | none =>
      rw [hpt] at h
      cases hres : (findAndAllocateFrames m.num_frames m.physical_frames
          (ps / SMALL_PAGE_SIZE)).1 with
      | none => rw [hres] at h; exact absurd rfl h
      | some pfn =>
        rw [hres] at h
        by_cases hv : vpn = first + i
        · omega
        · have hsame : (if vpn = first + i then some (pfn, ps)
              else m.page_table vpn) = m.page_table vpn := if_neg hv
          have hne : (MMU.allocPages ps first
              { m with
                physical_frames := (findAndAllocateFrames m.num_frames
                  m.physical_frames (ps / SMALL_PAGE_SIZE)).2
                page_table := fun v => if v = first + i then some (pfn, ps)
                  else m.page_table v } (i + 1) r).1.page_table vpn
              ≠ (if vpn = first + i then some (pfn, ps) else m.page_table vpn) := by
            rw [hsame]
            exact h
          have := ih (i + 1) _ vpn hne
          omega

theorem MMU.allocPages_success_covers (ps first : Nat) :
    ∀ (r i : Nat) (m : MMU),
      (MMU.allocPages ps first m i r).2 = .success →
      ∀ j, i ≤ j → j < i + r →
        (MMU.allocPages ps first m i r).1.page_table (first + j) ≠ none := by
  intro r
  induction r with
  | zero => intro i m _ j h1 h2; exact absurd h2 (by omega)
  | succ r ih =>
    intro i m hsucc j h1 h2
    simp only [MMU.allocPages] at hsucc ⊢
    cases hpt : m.page_table (first + i) with
    | some e' =>
      simp only [hpt] at hsucc ⊢
      rcases Nat.eq_or_lt_of_le h1 with hji | hji
      · subst hji
        rw [MMU.allocPages_pt_mono ps first r (i + 1) m (first + i) e' hpt]
        intro hx
        cases hx
      · exact ih (i + 1) m hsucc j hji (by omega)
    | none =>
      simp only [hpt] at hsucc ⊢
      cases hres : (findAndAllocateFrames m.num_frames m.physical_frames
          (ps / SMALL_PAGE_SIZE)).1 with
      | none => simp only [hres] at hsucc; cases hsucc
      | some pfn =>
        simp only [hres] at hsucc ⊢
        rcases Nat.eq_or_lt_of_le h1 with hji | hji
        · subst hji
          rw [MMU.allocPages_pt_mono ps first r (i + 1) _ (first + i)
            (pfn, ps) (by simp)]
          intro hx
          cases hx
        · exact ih (i + 1) _ hsucc j hji (by omega)

theorem MMU.allocPages_new_entries (ps first : Nat) :
    ∀ (r i : Nat) (m : MMU) (vpn : Nat),
      (MMU.allocPages ps first m i r).1.page_table vpn ≠ m.page_table vpn →
      ∃ pfn, (MMU.allocPages ps first m i r).1.page_table vpn = some (pfn, ps) := by
  intro r
  induction r with
  | zero => intro i m vpn h; exact absurd rfl h
  | succ r ih =>
    intro i m vpn h
    simp only [MMU.allocPages] at h ⊢
    cases hpt : m.page_table (first + i) with
    | some e' =>
      simp only [hpt] at h ⊢
      exact ih (i + 1) m vpn h
    | none =>
      simp only [hpt] at h ⊢
      cases hres : (findAndAllocateFrames m.num_frames m.physical_frames
          (ps / SMALL_PAGE_SIZE)).1 with
      | none => simp only [hres] at h; exact absurd rfl h
      | some pfn =>
        simp only [hres] at h ⊢
        by_cases hv : vpn = first + i
        · refine ⟨pfn, ?_⟩
          rw [MMU.allocPages_pt_mono ps first r (i + 1) _ vpn (pfn, ps)
            (by simp [hv])]
        · by_cases hch : (MMU.allocPages ps first
              { m with
                physical_frames := (findAndAllocateFrames m.num_frames
                  m.physical_frames (ps / SMALL_PAGE_SIZE)).2
                page_table := fun v => if v = first + i then some (pfn, ps)
                  else m.page_table v } (i + 1) r).1.page_table vpn
              = (if vpn = first + i then some (pfn, ps) else m.page_table vpn)
          · rw [if_neg hv] at hch
            exact absurd hch h
          · exact ih (i + 1) _ vpn hch

theorem MMU.allocPages_all_present (ps first : Nat) :
    ∀ (r i : Nat) (m : MMU),
      (∀ j, i ≤ j → j < i + r → m.page_table (first + j) ≠ none) →
      MMU.allocPages ps first m i r = (m, .success) := by
  intro r
  induction r with
  | zero => intro i m _; rfl
  | succ r ih =>
    intro i m hall
    simp only [MMU.allocPages]
    cases hpt : m.page_table (first + i) with
    | some e' =>
      simp only [hpt]
      exact ih (i + 1) m (fun j h1 h2 => hall j (by omega) (by omega))
    | none => exact absurd hpt (hall i (le_refl i) (by omega))

theorem MMU.allocPages_oom (ps first : Nat) :
    ∀ (r i : Nat) (m : MMU),
      (MMU.allocPages ps first m i r).2 = .outOfMemory →
      ∃ j, i ≤ j ∧ j < i + r
        ∧ (MMU.allocPages ps first m i r).1.page_table (first + j) = none
        ∧ (∀ j', i ≤ j' → j' < j →
            (MMU.allocPages ps first m i r).1.page_table (first + j') ≠ none)
        ∧ (∀ vpn, (MMU.allocPages ps first m i r).1.page_table vpn
              ≠ m.page_table vpn →
            first + i ≤ vpn ∧ vpn < first + j) := by
  intro r
  induction r with
  | zero => intro i m h; cases h
  | succ r ih =>
    intro i m hoom
    simp only [MMU.allocPages] at hoom ⊢
    cases hpt : m.page_table (first + i) with
    | some e' =>
      simp only [hpt] at hoom ⊢
      obtain ⟨j, hj1, hj2, hj3, hj4, hj5⟩ := ih (i + 1) m hoom
      refine ⟨j, by omega, by omega, hj3, ?_, ?_⟩
      · intro j' h1 h2
        rcases Nat.eq_or_lt_of_le h1 with hji | hji
        · subst hji
          rw [MMU.allocPages_pt_mono ps first r (i + 1) m (first + i) e' hpt]
          intro hx
          cases hx
        · exact hj4 j' hji h2
      · intro vpn hv
        have := hj5 vpn hv
        omega
    | none =>
      simp only [hpt] at hoom ⊢
      cases hres : (findAndAllocateFrames m.num_frames m.physical_frames
          (ps / SMALL_PAGE_SIZE)).1 with
      | none =>
        simp only [hres] at hoom ⊢
        refine ⟨i, le_refl i, by omega, hpt, fun j' h1 h2 => absurd h2 (by omega),
          fun vpn hv => absurd rfl hv⟩
      | some pfn =>
        simp only [hres] at hoom ⊢
        obtain ⟨j, hj1, hj2, hj3, hj4, hj5⟩ := ih (i + 1) _ hoom
        refine ⟨j, by omega, by omega, hj3, ?_, ?_⟩
        · intro j' h1 h2
          rcases Nat.eq_or_lt_of_le h1 with hji | hji
          · subst hji
            rw [MMU.allocPages_pt_mono ps first r (i + 1) _ (first + i)
              (pfn, ps) (by simp)]
            intro hx
            cases hx
          · exact hj4 j' hji h2
        · intro vpn hv
          by_cases hveq : vpn = first + i
          · constructor
            · omega
            · omega
          · by_cases hch : (MMU.allocPages ps first
                { m with
                  physical_frames := (findAndAllocateFrames m.num_frames
                    m.physical_frames (ps / SMALL_PAGE_SIZE)).2
                  page_table := fun v => if v = first + i then some (pfn, ps)
                    else m.page_table v } (i + 1) r).1.page_table vpn
                = (if vpn = first + i then some (pfn, ps) else m.page_table vpn)
            · rw [if_neg hveq] at hch
              exact absurd hch hv
            · have := hj5 vpn hch
              omega

/-- Claim C9: when `allocate` fails with OutOfMemory, the cumulative
internal-fragmentation counter has already been increased by the full
per-request contribution `num_pages * page_size - request_size` (the charge
happens before the per-page loop and is never rolled back), so
`get_internal_fragmentation` reflects it. -/
theorem oom_fragmentation_already_charged (m : MMU) (va sz : Nat)
    (_hsz : 1 ≤ sz)
    (_hoom : (m.allocate va sz).2 = .outOfMemory) :
    (m.allocate va sz).1.get_internal_fragmentation
      = m.get_internal_fragmentation
        + ((((va + sz - 1) / m.policy_engine.decide_page_size sz)
            - va / m.policy_engine.decide_page_size sz + 1)
            * m.policy_engine.decide_page_size sz - sz) := by
  unfold MMU.get_internal_fragmentation
  simp only [MMU.allocate]
  rw [MMU.allocPages_internal_fragmentation]

theorem oom_fragmentation_already_charged_witness :
    (tinyMMU.allocate 0 10000).1.get_internal_fragmentation
      = tinyMMU.get_internal_fragmentation
        + ((((0 + 10000 - 1) / tinyMMU.policy_engine.decide_page_size 10000)
            - 0 / tinyMMU.policy_engine.decide_page_size 10000 + 1)
            * tinyMMU.policy_engine.decide_page_size 10000 - 10000) :=
  oom_fragmentation_already_charged tinyMMU 0 10000 (by decide) (by decide)

/-- Claim C6: when the frame allocator cannot satisfy some VPN of an allocate
request, `allocate` fails as OutOfMemory, no further VPNs of the request are
processed (every page-table change is confined to the VPNs before the failing
one), and all entries created earlier — by previous requests or by earlier VPNs
of this request — remain committed and unmodified: there is no rollback. -/
theorem oom_stops_loop_no_rollback (m : MMU) (va sz : Nat)
    (hoom : (m.allocate va sz).2 = .outOfMemory) :
    (∀ vpn e, m.page_table vpn = some e →
        (m.allocate va sz).1.page_table vpn = some e)
    ∧ ∃ j, j < ((va + sz - 1) / m.policy_engine.decide_page_size sz
          - va / m.policy_engine.decide_page_size sz + 1)
        ∧ (m.allocate va sz).1.page_table
            (va / m.policy_engine.decide_page_size sz + j) = none
        ∧ (∀ j', j' < j →
            (m.allocate va sz).1.page_table
              (va / m.policy_engine.decide_page_size sz + j') ≠ none)
        ∧ (∀ vpn, (m.allocate va sz).1.page_table vpn ≠ m.page_table vpn →
            va / m.policy_engine.decide_page_size sz ≤ vpn
            ∧ vpn < va / m.policy_engine.decide_page_size sz + j) := by
  constructor
  · intro vpn e he
    simp only [MMU.allocate]
    exact MMU.allocPages_pt_mono _ _ _ 0 _ vpn e he
  · simp only [MMU.allocate] at hoom ⊢
    obtain ⟨j, hj1, hj2, hj3, hj4, hj5⟩ := MMU.allocPages_oom _ _ _ 0 _ hoom
    refine ⟨j, by omega, hj3, fun j' h2 => hj4 j' (by omega) h2, fun vpn hv => ?_⟩
    have := hj5 vpn hv
    omega

theorem oom_stops_loop_no_rollback_witness :
    (∀ vpn e, tinyMMU.page_table vpn = some e →
        (tinyMMU.allocate 0 10000).1.page_table vpn = some e)
    ∧ ∃ j, j < ((0 + 10000 - 1) / tinyMMU.policy_engine.decide_page_size 10000
          - 0 / tinyMMU.policy_engine.decide_page_size 10000 + 1)
        ∧ (tinyMMU.allocate 0 10000).1.page_table
            (0 / tinyMMU.policy_engine.decide_page_size 10000 + j) = none
        ∧ (∀ j', j' < j →
            (tinyMMU.allocate 0 10000).1.page_table
              (0 / tinyMMU.policy_engine.decide_page_size 10000 + j') ≠ none)
        ∧ (∀ vpn, (tinyMMU.allocate 0 10000).1.page_table vpn
              ≠ tinyMMU.page_table vpn →
            0 / tinyMMU.policy_engine.decide_page_size 10000 ≤ vpn
            ∧ vpn < 0 / tinyMMU.policy_engine.decide_page_size 10000 + j) :=
  oom_stops_loop_no_rollback tinyMMU 0 10000 (by decide)

/-- Claim C10: `allocate` never modifies or overwrites an existing page-table
entry: every VPN already present keeps its exact `(frame, page size)` pair —
so an entry's page size never changes after creation, and since the page table
maps each VPN to at most one pair this holds even when the existing entry was
created under a different page size than the current request's — and when every
VPN in the request's range is already present, the call allocates no frame and
changes neither the page table nor the frame bitmap, succeeding. -/
theorem allocate_never_overwrites (m : MMU) (va sz : Nat) :
    (∀ vpn e, m.page_table vpn = some e →
        (m.allocate va sz).1.page_table vpn = some e)
    ∧ ((∀ j, j < ((va + sz - 1) / m.policy_engine.decide_page_size sz
          - va / m.policy_engine.decide_page_size sz + 1) →
          m.page_table (va / m.policy_engine.decide_page_size sz + j) ≠ none) →
        (m.allocate va sz).1.page_table = m.page_table
        ∧ (m.allocate va sz).1.physical_frames = m.physical_frames
        ∧ (m.allocate va sz).2 = .success) := by
  constructor
  · intro vpn e he
    simp only [MMU.allocate]
    exact MMU.allocPages_pt_mono _ _ _ 0 _ vpn e he
  · intro hall
    simp only [MMU.allocate]
    have heq := MMU.allocPages_all_present
      (m.policy_engine.decide_page_size sz)
      (va / m.policy_engine.decide_page_size sz)
      ((va + sz - 1) / m.policy_engine.decide_page_size sz
        - va / m.policy_engine.decide_page_size sz + 1) 0
      { m with internal_fragmentation := m.internal_fragmentation +
          (((va + sz - 1) / m.policy_engine.decide_page_size sz
            - va / m.policy_engine.decide_page_size sz + 1)
            * m.policy_engine.decide_page_size sz - sz) }
      (fun j _ h2 => hall j (by omega))
    rw [heq]
    exact ⟨rfl, rfl, rfl⟩

theorem allocate_never_overwrites_witness :
    ((preMMU.allocate 0 4096).1.page_table 0 = some (7, 4096))
    ∧ ((preMMU.allocate 0 4096).1.page_table = preMMU.page_table
        ∧ (preMMU.allocate 0 4096).1.physical_frames = preMMU.physical_frames
        ∧ (preMMU.allocate 0 4096).2 = .success) :=
  ⟨(allocate_never_overwrites preMMU 0 4096).1 0 (7, 4096) (by decide),
   (allocate_never_overwrites preMMU 0 4096).2 (by decide)⟩

/-! ## Translation correctness -/

theorem OrderedDict.get_mem {d : OrderedDict} {x fv : Nat}
    (h : d.get x = some fv) : (x, fv) ∈ d.map := by
  unfold OrderedDict.get at h
  cases hf : d.map.find? (fun p => p.1 == x) with
  | none => rw [hf] at h; cases h
  | some p =>
    rw [hf] at h
    have hmem := List.mem_of_find?_eq_some hf
    have hp : (p.1 == x) = true :=
      @List.find?_some (Nat × Nat) (fun q => q.1 == x) p d.map hf
    have hx : p.1 = x := beq_iff_eq.mp hp
    simp only [Option.map_some'] at h
    cases h
    have : (x, p.2) = p := by
      rw [← hx]
    rw [this]
    exact hmem

theorem OrderedDict.mem_setAssoc {l : List (Nat × Nat)} {k v : Nat}
    {p : Nat × Nat} (h : p ∈ OrderedDict.setAssoc l k v) :
    p = (k, v) ∨ p ∈ l := by
  induction l with
  | nil =>
    simp only [OrderedDict.setAssoc, List.mem_singleton] at h
    exact Or.inl h
  | cons q l ih =>
    unfold OrderedDict.setAssoc at h
    by_cases hq : q.1 = k
    · rw [if_pos hq] at h
      rcases List.mem_cons.mp h with h | h
      · exact Or.inl h
      · exact Or.inr (List.mem_cons_of_mem q h)
    · rw [if_neg hq] at h
      rcases List.mem_cons.mp h with h | h
      · exact Or.inr (h ▸ List.mem_cons_self q l)
      · rcases ih h with h | h
        · exact Or.inl h
        · exact Or.inr (List.mem_cons_of_mem q h)

theorem TLB.insert_mem_subset {t : TLB} {vpn frame : Nat} {p : Nat × Nat}
    (h : p ∈ (t.insert vpn frame).cache.map) :
    p = (vpn, frame) ∨ p ∈ t.cache.map := by
  have hsub : ∀ (d : OrderedDict) (k : Nat) (q : Nat × Nat),
      q ∈ (d.erase k).map → q ∈ d.map := by
    intro d k q hq
    unfold OrderedDict.erase at hq
    split at hq
    · exact List.mem_of_mem_eraseP hq
    · exact hq
  simp only [TLB.insert] at h
  rcases OrderedDict.mem_setAssoc h with h | h
  · exact Or.inl h
  · split at h
    · exact Or.inr (hsub _ _ _ h)
    · split at h
      · exact Or.inr (hsub _ _ _ h)
      · exact Or.inr h

theorem MMU.resolveVpn_some {pt : Nat → Option (Nat × Nat)} {va vpn : Nat}
    (h : MMU.resolveVpn pt va = some vpn) :
    ∃ fr sz, pt vpn = some (fr, sz)
      ∧ ((sz = LARGE_PAGE_SIZE ∧ vpn = va / LARGE_PAGE_SIZE)
        ∨ (sz = SMALL_PAGE_SIZE ∧ vpn = va / SMALL_PAGE_SIZE)) := by
  unfold MMU.resolveVpn at h
  cases hL : pt (va / LARGE_PAGE_SIZE) with
  | some e =>
    simp only [hL] at h
    by_cases hsz : e.2 = LARGE_PAGE_SIZE
    · rw [if_pos hsz] at h
      cases h
      exact ⟨e.1, e.2, by rw [hL], Or.inl ⟨hsz, rfl⟩⟩
    · rw [if_neg hsz] at h
      cases hS : pt (va / SMALL_PAGE_SIZE) with
      | some e' =>
        simp only [hS] at h
        by_cases hsz' : e'.2 = SMALL_PAGE_SIZE
        · rw [if_pos hsz'] at h
          cases h
          exact ⟨e'.1, e'.2, by rw [hS], Or.inr ⟨hsz', rfl⟩⟩
        · rw [if_neg hsz'] at h
          cases h
      | none => simp only [hS] at h; cases h
  | none =>
    simp only [hL] at h
    cases hS : pt (va / SMALL_PAGE_SIZE) with
    | some e' =>
      simp only [hS] at h
      by_cases hsz' : e'.2 = SMALL_PAGE_SIZE
      · rw [if_pos hsz'] at h
        cases h
        exact ⟨e'.1, e'.2, by rw [hS], Or.inr ⟨hsz', rfl⟩⟩
      · rw [if_neg hsz'] at h
        cases h
    | none => simp only [hS] at h; cases h

theorem OrderedDict.get_isSome_of_contains {d : OrderedDict} {k : Nat}
    (h : d.containsKey k = true) : ∃ v, d.get k = some v := by
  unfold OrderedDict.containsKey at h
  unfold OrderedDict.get
  cases hf : d.map.find? (fun p => p.1 == k) with
  | some p => exact ⟨p.2, rfl⟩
  | none =>
    rw [List.any_eq_true] at h
    obtain ⟨p, hp, hpk⟩ := h
    have hnone := List.find?_eq_none.mp hf p hp
    rw [hpk] at hnone
    cases hnone rfl

theorem MMU.agrees_allocate {m : MMU} (hag : m.TLBAgrees) (va sz : Nat) :
    ((m.allocate va sz).1).TLBAgrees := by
  intro p hp
  have htlb : (m.allocate va sz).1.tlb = m.tlb := by
    simp only [MMU.allocate]
    exact (MMU.allocPages_fields _ _ _ 0 _).1
  rw [htlb] at hp
  obtain ⟨sz', hsz'⟩ := hag p hp
  refine ⟨sz', ?_⟩
  simp only [MMU.allocate]
  exact MMU.allocPages_pt_mono _ _ _ 0 _ _ _ hsz'

theorem MMU.agrees_translate {m : MMU} (hag : m.TLBAgrees) (va : Nat) :
    ((m.translate va).1).TLBAgrees := by
  unfold MMU.translate
  cases hres : MMU.resolveVpn m.page_table va with
  | none => exact hag
  | some vpn =>
    by_cases hc : m.tlb.cache.containsKey vpn = true
    · simp only [TLB.lookup, if_pos hc]
      have hc' : (m.tlb.cache.move_to_end vpn).containsKey vpn = true := by
        unfold OrderedDict.containsKey
        rw [OrderedDict.move_to_end_map]
        exact hc
      obtain ⟨f, hget⟩ := OrderedDict.get_isSome_of_contains hc'
      simp only [hget]
      intro p hp
      rw [OrderedDict.move_to_end_map] at hp
      exact hag p hp
    · simp only [TLB.lookup, if_neg hc]
      intro p hp
      rcases TLB.insert_mem_subset hp with hp | hp
      · obtain ⟨fr0, sz0, hpt, -⟩ := MMU.resolveVpn_some hres
        refine ⟨sz0, ?_⟩
        rw [hp]
        show m.page_table vpn = some (((m.page_table vpn).getD (0, 0)).1, sz0)
        rw [hpt]
        rfl
      · exact hag p hp

theorem MMU.run_agrees :
    ∀ (ops : List MMUOp) (m : MMU), m.TLBAgrees → (m.run ops).TLBAgrees := by
  intro ops
  induction ops with
  | nil => intro m h; exact h
  | cons op ops ih =>
    intro m h
    cases op with
    | alloc va sz => exact ih _ (MMU.agrees_allocate h va sz)
    | trans va => exact ih _ (MMU.agrees_translate h va)

theorem MMU.reachable_agrees {m : MMU} (h : m.Reachable) : m.TLBAgrees := by
  obtain ⟨pe, ops, hrun⟩ := h
  rw [← hrun]
  apply MMU.run_agrees
  intro p hp
  cases hp

theorem MMU.translate_frame {m : MMU} (hag : m.TLBAgrees) {va vpn : Nat}
    (hres : MMU.resolveVpn m.page_table va = some vpn) :
    ∃ fr sz, m.page_table vpn = some (fr, sz) ∧ (m.translate va).2 = some fr := by
  unfold MMU.translate
  rw [hres]
  by_cases hc : m.tlb.cache.containsKey vpn = true
  · simp only [TLB.lookup, if_pos hc]
    have hc' : (m.tlb.cache.move_to_end vpn).containsKey vpn = true := by
      unfold OrderedDict.containsKey
      rw [OrderedDict.move_to_end_map]
      exact hc
    obtain ⟨f, hget⟩ := OrderedDict.get_isSome_of_contains hc'
    have hmem : (vpn, f) ∈ m.tlb.cache.map := by
      have hm := OrderedDict.get_mem hget
      rwa [OrderedDict.move_to_end_map] at hm
    obtain ⟨sz0, hpt⟩ := hag (vpn, f) hmem
    refine ⟨f, sz0, hpt, ?_⟩
    simp only [hget]
  · simp only [TLB.lookup, if_neg hc]
    obtain ⟨fr0, sz0, hpt, -⟩ := MMU.resolveVpn_some hres
    refine ⟨fr0, sz0, hpt, ?_⟩
    show some (((m.page_table vpn).getD (0, 0)).1) = some fr0
    rw [hpt]
    rfl

theorem MMU.resolveVpn_covers (pt : Nat → Option (Nat × Nat)) (va vpn fr sz : Nat)
    (h : MMU.resolveVpn pt va = some vpn) (hpt : pt vpn = some (fr, sz)) :
    sz * vpn ≤ va ∧ va < sz * vpn + sz := by
  obtain ⟨fr0, sz0, hpt0, hcase⟩ := MMU.resolveVpn_some h
  rw [hpt] at hpt0
  injection hpt0 with he
  have hmk := (Prod.mk.injEq fr sz fr0 sz0).mp he
  rcases hcase with ⟨hszL, hvpn⟩ | ⟨hszS, hvpn⟩
  · subst hvpn
    have hsz : sz = LARGE_PAGE_SIZE := hmk.2.trans hszL
    subst hsz
    have hdm := Nat.div_add_mod va LARGE_PAGE_SIZE
    have hmod := Nat.mod_lt va (show 0 < LARGE_PAGE_SIZE by decide)
    unfold LARGE_PAGE_SIZE at hdm hmod ⊢
    omega
  · subst hvpn
    have hsz : sz = SMALL_PAGE_SIZE := hmk.2.trans hszS
    subst hsz
    have hdm := Nat.div_add_mod va SMALL_PAGE_SIZE
    have hmod := Nat.mod_lt va (show 0 < SMALL_PAGE_SIZE by decide)
    unfold SMALL_PAGE_SIZE at hdm hmod ⊢
    omega

theorem MMU.resolve_after_uniform_alloc (pt : Nat → Option (Nat × Nat))
    (ps va sz a : Nat)
    (hps : ps = SMALL_PAGE_SIZE ∨ ps = LARGE_PAGE_SIZE)
    (ha1 : va ≤ a) (ha2 : a < va + sz) (hsz : 1 ≤ sz)
    (huni : ∀ vpn, va / ps ≤ vpn → vpn ≤ (va + sz - 1) / ps →
        ∃ fr, pt vpn = some (fr, ps)) :
    ∃ vpn, MMU.resolveVpn pt a = some vpn := by
  obtain ⟨fr, hfr⟩ := huni (a / ps) (Nat.div_le_div_right ha1)
    (Nat.div_le_div_right (by omega))
  rcases hps with hps | hps
  · subst hps
    cases hL : pt (a / LARGE_PAGE_SIZE) with
    | some e =>
      by_cases hsz2 : e.2 = LARGE_PAGE_SIZE
      · exact ⟨a / LARGE_PAGE_SIZE, by simp [MMU.resolveVpn, hL, hsz2]⟩
      · exact ⟨a / SMALL_PAGE_SIZE, by simp [MMU.resolveVpn, hL, hsz2, hfr]⟩
    | none => exact ⟨a / SMALL_PAGE_SIZE, by simp [MMU.resolveVpn, hL, hfr]⟩
  · subst hps
    exact ⟨a / LARGE_PAGE_SIZE, by simp [MMU.resolveVpn, hfr]⟩

/-- Claim C1, amended: for every address within a successfully allocated request
all of whose range VPNs carry the request's policy-selected page size,
`translate` resolves a VPN whose page covers the address and returns exactly the
physical frame recorded in the page table for that VPN — independently of the
current TLB contents: the state is reachable, every reachable state's TLB agrees
with the page table, so the hit and miss paths return the same frame. -/
theorem translate_returns_page_table_frame (m : MMU) (hreach : m.Reachable)
    (va sz a : Nat) (hsz : 1 ≤ sz) (ha1 : va ≤ a) (ha2 : a < va + sz)
    (_hsucc : (m.allocate va sz).2 = .success)
    (huni : ∀ vpn, va / m.policy_engine.decide_page_size sz ≤ vpn →
        vpn ≤ (va + sz - 1) / m.policy_engine.decide_page_size sz →
        ∃ fr, (m.allocate va sz).1.page_table vpn
          = some (fr, m.policy_engine.decide_page_size sz)) :
    ∃ vpn fr psz,
      (m.allocate va sz).1.page_table vpn = some (fr, psz)
      ∧ psz * vpn ≤ a ∧ a < psz * vpn + psz
      ∧ (((m.allocate va sz).1).translate a).2 = some fr := by
  have hag : ((m.allocate va sz).1).TLBAgrees :=
    MMU.agrees_allocate (MMU.reachable_agrees hreach) va sz
  have hps : m.policy_engine.decide_page_size sz = SMALL_PAGE_SIZE
      ∨ m.policy_engine.decide_page_size sz = LARGE_PAGE_SIZE := by
    unfold PolicyEngine.decide_page_size
    split
    · exact Or.inl rfl
    · split
      · exact Or.inr rfl
      · split
        · split
          · exact Or.inr rfl
          · exact Or.inl rfl
        · exact Or.inl rfl
  obtain ⟨vpn, hres⟩ := MMU.resolve_after_uniform_alloc
    ((m.allocate va sz).1.page_table) (m.policy_engine.decide_page_size sz)
    va sz a hps ha1 ha2 hsz huni
  obtain ⟨fr, psz, hpt, htrans⟩ := MMU.translate_frame hag hres
  have hcov := MMU.resolveVpn_covers ((m.allocate va sz).1.page_table)
    a vpn fr psz hres hpt
  exact ⟨vpn, fr, psz, hpt, hcov.1, hcov.2, htrans⟩

theorem translate_returns_page_table_frame_witness :
    ∃ vpn fr psz,
      (((MMU.init PolicyEngine.default).allocate 0 4096).1).page_table vpn
        = some (fr, psz)
      ∧ psz * vpn ≤ 100 ∧ (100 : Nat) < psz * vpn + psz
      ∧ ((((MMU.init PolicyEngine.default).allocate 0 4096).1).translate 100).2
          = some fr :=
  translate_returns_page_table_frame (MMU.init PolicyEngine.default)
    ⟨PolicyEngine.default, [], rfl⟩ 0 4096 100 (by decide) (by decide) (by decide)
    (by decide)
    (by
      intro vpn h1 h2
      have hps : (MMU.init PolicyEngine.default).policy_engine.decide_page_size 4096
          = 4096 := by decide
      rw [hps] at h2
      have hv : vpn = 0 := by omega
      subst hv
      exact ⟨0, by decide⟩)

set_option maxRecDepth 10000 in
/-- Claim C1 as stated fails on the code: with the default dynamic policy,
`allocate(0, 4096)` (one small page) and then `allocate(0, 2097153)` (two large
pages) both succeed, yet translating address `1048576` — inside the second,
successfully allocated request — fails as InvalidAddress (no frame is
returned): VPN 0 of the large-page request was skipped because the numerically
equal small-page VPN 0 already existed with a different page size, so no
covering page-table entry exists for the address. -/
theorem translate_returns_page_table_frame_counterexample :
    (((MMU.init PolicyEngine.default).allocate 0 4096).2 = .success)
    ∧ ((((MMU.init PolicyEngine.default).allocate 0 4096).1.allocate 0
          2097153).2 = .success)
    ∧ (0 : Nat) ≤ 1048576 ∧ (1048576 : Nat) < 0 + 2097153
    ∧ (((((MMU.init PolicyEngine.default).allocate 0 4096).1.allocate 0
          2097153).1.translate 1048576).2 = none) := by
  decide
